import Mathlib

/-!
# Verification of the duplicate-file finder/remover

A shallow embedding of `src/DuplicateFileRemover.py` and proofs of the
specified properties of its hashing, grouping, deletion and main-flow logic.

The filesystem is abstracted as the sequence of files the directory walk
yields, each carrying the observations the program can make about it
(`os.path.getsize` at walk time, and the byte content an `open`/`read`
succeeds in delivering, or `none` when it raises `IOError`).

`hashlib.sha256` is embedded as an executable SHA-256 over byte lists
(`Nat`s below 256), so fingerprints are computed, not postulated.
-/

namespace DupRemover

/-- 2^32, the modulus of all SHA-256 word arithmetic. -/
def m32 : Nat := 4294967296

/-- Right rotation of a 32-bit word (word assumed `< 2^32`). -/
def rotr32 (x n : Nat) : Nat := ((x >>> n) ||| (x <<< (32 - n))) % m32

/-- Bitwise complement within 32 bits. -/
def not32 (x : Nat) : Nat := x ^^^ 4294967295

/-- SHA-256 `Ch(e,f,g)`. -/
def ch (x y z : Nat) : Nat := (x &&& y) ^^^ (not32 x &&& z)

/-- SHA-256 `Maj(a,b,c)`. -/
def maj (x y z : Nat) : Nat := (x &&& y) ^^^ (x &&& z) ^^^ (y &&& z)

/-- SHA-256 Σ0. -/
def bigSigma0 (x : Nat) : Nat := rotr32 x 2 ^^^ rotr32 x 13 ^^^ rotr32 x 22

/-- SHA-256 Σ1. -/
def bigSigma1 (x : Nat) : Nat := rotr32 x 6 ^^^ rotr32 x 11 ^^^ rotr32 x 25

/-- SHA-256 σ0. -/
def smallSigma0 (x : Nat) : Nat := rotr32 x 7 ^^^ rotr32 x 18 ^^^ (x >>> 3)

/-- SHA-256 σ1. -/
def smallSigma1 (x : Nat) : Nat := rotr32 x 17 ^^^ rotr32 x 19 ^^^ (x >>> 10)

/-- The 64 SHA-256 round constants (FIPS 180-4), written in decimal. -/
def K64 : List Nat :=
  [1116352408, 1899447441, 3049323471, 3921009573, 961987163,
   1508970993, 2453635748, 2870763221, 3624381080, 310598401,
   607225278, 1426881987, 1925078388, 2162078206, 2614888103,
   3248222580, 3835390401, 4022224774, 264347078, 604807628,
   770255983, 1249150122, 1555081692, 1996064986, 2554220882,
   2821834349, 2952996808, 3210313671, 3336571891, 3584528711,
   113926993, 338241895, 666307205, 773529912, 1294757372,
   1396182291, 1695183700, 1986661051, 2177026350, 2456956037,
   2730485921, 2820302411, 3259730800, 3345764771, 3516065817,
   3600352804, 4094571909, 275423344, 430227734, 506948616,
   659060556, 883997877, 958139571, 1322822218, 1537002063,
   1747873779, 1955562222, 2024104815, 2227730452, 2361852424,
   2428436474, 2756734187, 3204031479, 3329325298]

/-- Working state: the eight 32-bit words of SHA-256. -/
structure Words8 where
  a : Nat
  b : Nat
  c : Nat
  d : Nat
  e : Nat
  f : Nat
  g : Nat
  h : Nat
deriving DecidableEq, Repr

/-- The SHA-256 initial hash value (FIPS 180-4), written in decimal. -/
def initH : Words8 :=
  ⟨1779033703, 3144134277, 1013904242, 2773480762,
   1359893119, 2600822924, 528734635, 1541459225⟩

/-- One SHA-256 compression round with round constant `k` and schedule word `w`. -/
def compressRound (s : Words8) (k w : Nat) : Words8 :=
  let t1 := (s.h + bigSigma1 s.e + ch s.e s.f s.g + k + w) % m32
  let t2 := (bigSigma0 s.a + maj s.a s.b s.c) % m32
  ⟨(t1 + t2) % m32, s.a, s.b, s.c, (s.d + t1) % m32, s.e, s.f, s.g⟩

/-- Run the 64 rounds over the zipped list of round constants and schedule words. -/
def roundsGo : List (Nat × Nat) → Words8 → Words8
  | [], s => s
  | (k, w) :: rest, s => roundsGo rest (compressRound s k w)

/-- Big-endian packing of bytes into 32-bit words, four bytes per word. -/
def bytesToWords : List Nat → List Nat
  | b0 :: b1 :: b2 :: b3 :: rest =>
      (b0 * 16777216 + b1 * 65536 + b2 * 256 + b3) :: bytesToWords rest
  | _ => []

/-- Next message-schedule word, given the already-built words most recent first. -/
def nextW (ws : List Nat) : Nat :=
  (smallSigma1 (ws.getD 1 0) + ws.getD 6 0 + smallSigma0 (ws.getD 14 0)
    + ws.getD 15 0) % m32

/-- Extend the message schedule by `n` words; `ws` holds the words most recent
first, and the full schedule is returned in order. -/
def buildW : Nat → List Nat → List Nat
  | 0, ws => ws.reverse
  | n + 1, ws => buildW n (nextW ws :: ws)

/-- SHA-256 compression of one 64-byte block into the chaining value `h0`. -/
def compressBlock (h0 : Words8) (block : List Nat) : Words8 :=
  let ws := buildW 48 (bytesToWords block).reverse
  let s := roundsGo (K64.zip ws) h0
  ⟨(h0.a + s.a) % m32, (h0.b + s.b) % m32, (h0.c + s.c) % m32, (h0.d + s.d) % m32,
   (h0.e + s.e) % m32, (h0.f + s.f) % m32, (h0.g + s.g) % m32, (h0.h + s.h) % m32⟩

/-- The eight big-endian bytes of a 64-bit length field. -/
def beBytes8 (n : Nat) : List Nat :=
  [n / 72057594037927936 % 256, n / 281474976710656 % 256,
   n / 1099511627776 % 256, n / 4294967296 % 256,
   n / 16777216 % 256, n / 65536 % 256, n / 256 % 256, n % 256]

/-- SHA-256 padding: append `0x80`, zero bytes to 56 mod 64, then the
bit length as a 64-bit big-endian integer. -/
def padBytes (msg : List Nat) : List Nat :=
  let l := msg.length
  let r := (l + 1) % 64
  let zeros := if r ≤ 56 then 56 - r else 120 - r
  msg ++ 128 :: (List.replicate zeros 0 ++ beBytes8 (l * 8))

/-- Split a byte list into 64-byte blocks; `fuel` bounds the recursion and is
instantiated with the list length. -/
def toBlocks : Nat → List Nat → List (List Nat)
  | 0, _ => []
  | _ + 1, [] => []
  | fuel + 1, bytes => bytes.take 64 :: toBlocks fuel (bytes.drop 64)

/-- The SHA-256 state after absorbing a whole (padded) message. -/
def sha256words (msg : List Nat) : Words8 :=
  let padded := padBytes msg
  (toBlocks padded.length padded).foldl compressBlock initH

/-- The four big-endian bytes of a 32-bit word. -/
def wordBytes (w : Nat) : List Nat :=
  [w / 16777216 % 256, w / 65536 % 256, w / 256 % 256, w % 256]

/-- A hexadecimal digit character. -/
def hexChar (n : Nat) : Char :=
  if n < 10 then Char.ofNat (48 + n) else Char.ofNat (87 + n)

/-- Lowercase hex rendering of a byte list, two characters per byte. -/
def hexBytes : List Nat → List Char
  | [] => []
  | b :: rest => hexChar (b / 16) :: hexChar (b % 16) :: hexBytes rest

/-- The hex digest of SHA-256, as `hashlib.sha256(...).hexdigest()` returns it. -/
def sha256hex (msg : List Nat) : String :=
  let s := sha256words msg
  String.mk (hexBytes (wordBytes s.a ++ wordBytes s.b ++ wordBytes s.c ++
    wordBytes s.d ++ wordBytes s.e ++ wordBytes s.f ++ wordBytes s.g ++
    wordBytes s.h))

/-!
## Filesystem abstraction and observable events
-/

/-- One file yielded by `os.walk`, with the observations the program can make:
`statSize` is what `os.path.getsize` returns at walk time (`none` when the call
raises `OSError`, e.g. the file vanished between the walk and the size check),
and `content` is the byte sequence `open`/`read` delivers during hashing
(`none` when opening or reading raises `IOError`). -/
structure FSEntry where
  path : String
  statSize : Option Nat
  content : Option (List Nat)
deriving DecidableEq, Repr

/-- The input of a scan: the `os.path.isdir` answer for the chosen root and the
regular files the walk would yield, in discovery order. -/
structure ScanInput where
  isDir : Bool
  files : List FSEntry
deriving DecidableEq, Repr

/-- Observable actions of the program, in program order: dialogs, file stats,
hash computations, the confirmation prompt, `os.remove` calls, successful
deletions, and console lines. -/
inductive Event where
  | errorDialog (title msg : String)
  | infoDialog (title msg : String)
  | statFile (path : String)
  | hashFile (path : String)
  | confirmPrompt (msg : String)
  | removeCall (path : String)
  | deleteFile (path : String)
  | printLine (s : String)
deriving DecidableEq, Repr

/-!
## Insertion-ordered association lists

Python `dict`s preserve insertion order; an update of an existing key keeps its
position, a new key is appended at the end.
-/

/-- Lookup in an insertion-ordered association list (`k in d` / `d[k]`). -/
def lookupA {α : Type} : List (String × α) → String → Option α
  | [], _ => none
  | (k, v) :: rest, key => if k = key then some v else lookupA rest key

/-- `d[k] = v`: update in place when the key exists, append otherwise. -/
def setA {α : Type} : List (String × α) → String → α → List (String × α)
  | [], key, v => [(key, v)]
  | (k, w) :: rest, key, v =>
      if k = key then (k, v) :: rest else (k, w) :: setA rest key v

/-- The keys of an association list are pairwise distinct. -/
def keysNodup {α : Type} (l : List (String × α)) : Prop :=
  (l.map Prod.fst).Nodup

/-!
## The embedded program

Each definition mirrors one piece of `DuplicateFileRemover.py`.
-/

/-- `calculate_hash` (lines 11–35): stream the file and return the SHA-256 hex
digest, or `None` when opening or reading raises `IOError`. Reading in
`block_size` chunks feeds the same bytes to the digest as reading at once, so
the digest is a function of the full content. -/
def calculate_hash (e : FSEntry) : Option String :=
  match e.content with
  | none => none
  | some bytes => some (sha256hex bytes)

/-- The grouping state of `find_duplicate_files`: the `file_hashes` dict
(fingerprint → first path seen, the FingerprintIndex originals) and the
`duplicates` dict (fingerprint → all its paths, once two have been seen). -/
structure GroupState where
  file_hashes : List (String × String)
  duplicates : List (String × List String)
deriving DecidableEq, Repr

/-- The empty initial grouping state. -/
def initGS : GroupState := ⟨[], []⟩

/-- Lines 67–73: record one hashed path. If the hash was seen before, ensure a
`duplicates` entry seeded with the first path, then append this path; otherwise
record the path as the hash's first (original). -/
def insertHash (st : GroupState) (h p : String) : GroupState :=
  match lookupA st.file_hashes h with
  | some orig =>
      let d0 := match lookupA st.duplicates h with
                | none => setA st.duplicates h [orig]
                | some _ => st.duplicates
      { st with duplicates := setA d0 h ((lookupA d0 h).getD [] ++ [p]) }
  | none => { st with file_hashes := setA st.file_hashes h p }

/-- The events of processing one walked file (lines 60–64): a `getsize` call
always, a hash computation only when the size check passes. -/
def stepEvents (e : FSEntry) : List Event :=
  match e.statSize with
  | none => [.statFile e.path]
  | some sz => if 0 < sz then [.statFile e.path, .hashFile e.path]
               else [.statFile e.path]

/-- The state effect of processing one walked file (lines 60–73).
`os.path.getsize` is called outside any `try`, so its `OSError` propagates
(modelled as `Except.error` carrying the path). A size-zero file is skipped;
a `None` hash (and, per `if file_hash:`, an empty digest string) is skipped;
otherwise the path is recorded. -/
def stepResult (st : GroupState) (e : FSEntry) : Except String GroupState :=
  match e.statSize with
  | none => .error e.path
  | some sz =>
      if 0 < sz then
        match calculate_hash e with
        | some h => if h = "" then .ok st else .ok (insertHash st h e.path)
        | none => .ok st
      else .ok st

/-- The walk loop of lines 58–73: process files in discovery order, stopping
with the uncaught exception if one occurs. -/
def scanWalk : GroupState → List FSEntry → List Event × Except String GroupState
  | st, [] => ([], .ok st)
  | st, e :: rest =>
      match stepResult st e with
      | .error msg => (stepEvents e, .error msg)
      | .ok st' =>
          let r := scanWalk st' rest
          (stepEvents e ++ r.1, r.2)

/-- `find_duplicate_files` (lines 37–75): reject a non-directory root with an
error dialog and an empty dict; otherwise walk and return the `duplicates`
dict. The `Except.error` case is the uncaught `OSError` aborting the scan. -/
def find_duplicate_files (inp : ScanInput) :
    List Event × Except String (List (String × List String)) :=
  if inp.isDir then
    let r := scanWalk initGS inp.files
    (r.1, r.2.map GroupState.duplicates)
  else
    ([.errorDialog "Error" "The selected path is not a valid directory."], .ok [])

/-!
## Deletion
-/

/-- The filesystem as the delete phase observes it: `size` is what
`os.path.getsize` returns at deletion time (`none` when it raises), and
`removeOk` tells whether `os.remove` succeeds on a path. -/
structure DeleteEnv where
  size : String → Option Nat
  removeOk : String → Bool

/-- Lines 102–110 for one duplicate path: inside `try`, read the size, call
`os.remove`; on success count the file and its pre-deletion size and log it;
any `OSError` (from `getsize` or `remove`) is caught and reported in an error
dialog, the path contributing nothing to the totals. Returns
(events, files deleted, bytes reclaimed). -/
def deleteOne (env : DeleteEnv) (p : String) : List Event × Nat × Nat :=
  match env.size p with
  | none => ([.errorDialog "Error" ("Error deleting file " ++ p)], 0, 0)
  | some s =>
      if env.removeOk p then
        ([.removeCall p, .deleteFile p, .printLine ("Deleted: " ++ p)], 1, s)
      else
        ([.removeCall p, .errorDialog "Error" ("Error deleting file " ++ p)], 0, 0)

/-- The inner loop of lines 102–110 over a list of paths. -/
def deletePaths (env : DeleteEnv) : List String → List Event × Nat × Nat
  | [] => ([], 0, 0)
  | p :: rest =>
      let r1 := deleteOne env p
      let r2 := deletePaths env rest
      (r1.1 ++ r2.1, r1.2.1 + r2.2.1, r1.2.2 + r2.2.2)

/-- The group loop of lines 97–110: keep `file_paths[0]`, process
`file_paths[1:]`. (The grouper only ever emits groups of length ≥ 2, so the
`file_paths[0]` access is safe; `List.tail` is its complement.) -/
def deleteGroups (env : DeleteEnv) : List (String × List String) → List Event × Nat × Nat
  | [] => ([], 0, 0)
  | g :: rest =>
      let r1 := deletePaths env g.2.tail
      let r2 := deleteGroups env rest
      (r1.1 ++ r2.1, r1.2.1 + r2.2.1, r1.2.2 + r2.2.2)

/-- `delete_duplicates` (lines 77–112): an empty dict shows the
"No Duplicates Found" dialog and returns `(0, 0)`; otherwise every group's
non-first paths are processed in order. -/
def delete_duplicates (env : DeleteEnv) (dups : List (String × List String)) :
    List Event × Nat × Nat :=
  if dups = [] then
    ([.infoDialog "No Duplicates Found"
        "No duplicate files were found in the selected folder."], 0, 0)
  else deleteGroups env dups

/-!
## Main flow
-/

/-- The user's answer to the confirmation dialog. -/
inductive Decision where
  | confirm
  | cancel
deriving DecidableEq, Repr

/-- The summary dialog text of lines 158–160 (the MB figure is a formatted
float in the source; the model carries the exact byte count). -/
def summaryMsg (count bytes : Nat) : String :=
  "Operation complete! Deleted " ++ toString count ++
    " duplicate files. Freed up " ++ toString bytes ++ " bytes of space."

/-- Lines 132–180, after the scan returned `dups`: when duplicates were found,
show the confirmation window; confirming runs `delete_duplicates` and shows the
summary, cancelling shows the "Cancelled" dialog; when no duplicates were
found, show the "No Duplicates Found" dialog. -/
def mainAfterScan (env : DeleteEnv) (dec : Decision)
    (dups : List (String × List String)) : List Event :=
  if dups = [] then
    [.infoDialog "No Duplicates Found"
      "No duplicate files were found in the selected folder."]
  else
    .confirmPrompt "Do you want to delete these files?" ::
    (match dec with
     | .confirm =>
        let r := delete_duplicates env dups
        r.1 ++ [.infoDialog "Summary" (summaryMsg r.2.1 r.2.2)]
     | .cancel => [.infoDialog "Cancelled" "No files were deleted."])

/-- `main` (lines 114–182) on the branch where a folder was selected: run the
scan, then the post-scan flow. An exception escaping `find_duplicate_files` is
uncaught in `main`, so the run ends with only the events emitted so far. -/
def mainModel (inp : ScanInput) (env : DeleteEnv) (dec : Decision) : List Event :=
  let r := find_duplicate_files inp
  match r.2 with
  | .error _ => r.1
  | .ok dups => r.1 ++ mainAfterScan env dec dups

/-!
## Specification-level views
-/

/-- Whether walked file `e` is hashed and grouped under fingerprint `h`: it is
readable, non-empty, and its content's digest is `h`. -/
def goodHash (e : FSEntry) (h : String) : Bool :=
  match e.content with
  | some c => decide (0 < e.statSize.getD 0) && decide (sha256hex c = h)
  | none => false

/-- The paths of walked files grouped under fingerprint `h`, in discovery
order. -/
def groupedPaths (files : List FSEntry) (h : String) : List String :=
  files.filterMap fun e => if goodHash e h then some e.path else none

/-- Whether a walked file takes part in grouping at all (readable and
non-empty). -/
def keepFile (e : FSEntry) : Bool :=
  decide (0 < e.statSize.getD 0) && e.content.isSome

/-- The paths of the successful `os.remove` calls in an event trace. -/
def deletedFiles (evs : List Event) : List String :=
  evs.filterMap fun ev => match ev with | .deleteFile p => some p | _ => none

/-- The paths on which `os.remove` was invoked (successfully or not). -/
def removedCalls (evs : List Event) : List String :=
  evs.filterMap fun ev => match ev with | .removeCall p => some p | _ => none

/-!
## Concrete scans and deletion environments for instantiation
-/

/-- SHA-256 of the single byte `120` (ASCII `x`). -/
def hashX : String :=
  "2d711642b726b04401627ca9fbac32f5c8530fb1903cc4db02258717921a4881"

/-- SHA-256 of the single byte `121` (ASCII `y`). -/
def hashY : String :=
  "a1fce4363854ff888cff4b8e7875d600c2682390412a8cf79b37d0b11148b0fa"

/-- A walk yielding two files of equal content, one unique file, and one
empty file. -/
def filesDup : List FSEntry :=
  [⟨"/scan/a.txt", some 1, some [120]⟩,
   ⟨"/scan/b.txt", some 1, some [120]⟩,
   ⟨"/scan/c.txt", some 1, some [121]⟩,
   ⟨"/scan/empty.txt", some 0, some []⟩]

/-- `filesDup` preceded by a file whose `open`/`read` raises (stat still
succeeds). -/
def filesUnread : List FSEntry :=
  ⟨"/scan/locked.txt", some 3, none⟩ :: filesDup

/-- `filesDup` preceded by a file that vanishes between the walk and the
size check, so `os.path.getsize` raises. -/
def filesGhost : List FSEntry :=
  ⟨"/scan/ghost.txt", none, none⟩ :: filesDup

/-- The duplicate dict produced by scanning `filesDup`. -/
def dupsX : List (String × List String) :=
  [(hashX, ["/scan/a.txt", "/scan/b.txt"])]

/-- The grouping state produced by scanning `filesDup` (also `filesUnread`:
the unreadable file is excluded). -/
def stDup : GroupState :=
  ⟨[(hashX, "/scan/a.txt"), (hashY, "/scan/c.txt")], dupsX⟩

/-- A three-way duplicate group for exercising the remover. -/
def dupsTriple : List (String × List String) :=
  [(hashX, ["/d/orig.txt", "/d/copy1.txt", "/d/copy2.txt"])]

/-- A deletion environment where every file is 7 bytes and removal always
succeeds. -/
def envAllOk : DeleteEnv := ⟨fun _ => some 7, fun _ => true⟩

/-- A deletion environment where removing `/d/copy1.txt` fails. -/
def envOneFails : DeleteEnv :=
  ⟨fun _ => some 7, fun p => !(p == "/d/copy1.txt")⟩

/-!
## Association-list lemmas
-/

theorem lookupA_setA_self {α : Type} (l : List (String × α)) (k : String) (v : α) :
    lookupA (setA l k v) k = some v := by
  induction l with
  | nil => simp [setA, lookupA]
  | cons hd tl ih =>
      obtain ⟨k', v'⟩ := hd
      by_cases hk : k' = k
      · simp [setA, hk, lookupA]
      · simp [setA, hk, lookupA, ih]

theorem lookupA_setA_ne {α : Type} (l : List (String × α)) {k k' : String} (v : α)
    (hne : k ≠ k') : lookupA (setA l k v) k' = lookupA l k' := by
  induction l with
  | nil => simp [setA, lookupA, hne]
  | cons hd tl ih =>
      obtain ⟨k0, v0⟩ := hd
      by_cases hk : k0 = k
      · subst hk; simp [setA, lookupA, hne]
      · simp [setA, hk, lookupA, ih]

theorem keys_setA {α : Type} (l : List (String × α)) (k : String) (v : α) :
    (setA l k v).map Prod.fst =
      (if k ∈ l.map Prod.fst then l.map Prod.fst else l.map Prod.fst ++ [k]) := by
  induction l with
  | nil => simp [setA]
  | cons hd tl ih =>
      obtain ⟨k0, v0⟩ := hd
      by_cases hk : k0 = k
      · subst hk; simp [setA]
      · have hne : ¬ k = k0 := fun hh => hk hh.symm
        simp [setA, hk, ih, hne]
        by_cases hmem : k ∈ tl.map Prod.fst <;> simp [hmem, hne]

theorem keysNodup_setA {α : Type} (l : List (String × α)) (k : String) (v : α)
    (hnd : keysNodup l) : keysNodup (setA l k v) := by
  unfold keysNodup at *
  rw [keys_setA]
  by_cases hmem : k ∈ l.map Prod.fst
  · simpa [hmem] using hnd
  · simp only [hmem, if_false]
    exact List.Nodup.append hnd (List.nodup_singleton k)
      (by simpa [List.disjoint_singleton] using hmem)

theorem lookupA_eq_some_of_mem {α : Type} {l : List (String × α)} {k : String}
    {v : α} (hnd : keysNodup l) (hm : (k, v) ∈ l) : lookupA l k = some v := by
  induction l with
  | nil => simp at hm
  | cons hd tl ih =>
      obtain ⟨k0, v0⟩ := hd
      simp only [keysNodup, List.map_cons, List.nodup_cons] at hnd
      rcases List.mem_cons.mp hm with heq | htl
      · injection heq with h1 h2
        subst h1; subst h2
        simp [lookupA]
      · have hk : k0 ≠ k := by
          intro hh
          exact hnd.1 (hh ▸ List.mem_map.mpr ⟨(k, v), htl, rfl⟩)
        simp [lookupA, hk, ih hnd.2 htl]

theorem mem_of_lookupA_eq_some {α : Type} {l : List (String × α)} {k : String}
    {v : α} (hl : lookupA l k = some v) : (k, v) ∈ l := by
  induction l with
  | nil => simp [lookupA] at hl
  | cons hd tl ih =>
      obtain ⟨k0, v0⟩ := hd
      by_cases hk : k0 = k
      · subst hk
        have hv : v0 = v := by simpa [lookupA] using hl
        subst hv
        exact List.mem_cons_self _ _
      · simp only [lookupA, if_neg hk] at hl
        exact List.mem_cons_of_mem _ (ih hl)

/-!
## Facts about the digest and `insertHash`
-/

/-- A SHA-256 hex digest is never the empty string, so the truthiness test
`if file_hash:` never discards a computed digest. -/
theorem sha256hex_ne_empty (msg : List Nat) : sha256hex msg ≠ "" := by
  unfold sha256hex wordBytes
  intro hcontra
  have hdata := congrArg String.data hcontra
  simp [hexBytes] at hdata

theorem insertHash_first (st : GroupState) (h p : String)
    (h1 : lookupA st.file_hashes h = none) :
    insertHash st h p =
      { st with file_hashes := setA st.file_hashes h p } := by
  simp [insertHash, h1]

theorem insertHash_second (st : GroupState) (h p orig : String)
    (h1 : lookupA st.file_hashes h = some orig)
    (h2 : lookupA st.duplicates h = none) :
    insertHash st h p =
      { st with duplicates := setA (setA st.duplicates h [orig]) h [orig, p] } := by
  simp [insertHash, h1, h2, lookupA_setA_self]

theorem insertHash_later (st : GroupState) (h p orig : String) (cur : List String)
    (h1 : lookupA st.file_hashes h = some orig)
    (h2 : lookupA st.duplicates h = some cur) :
    insertHash st h p =
      { st with duplicates := setA st.duplicates h (cur ++ [p]) } := by
  simp [insertHash, h1, h2]

/-!
## The grouping invariant
-/

/-- After processing `files`, the scan state is fully characterised:
`file_hashes` maps each fingerprint to the first of its grouped paths, and
`duplicates` holds exactly the fingerprints with at least two grouped paths,
each with all its paths in discovery order. -/
def Inv (files : List FSEntry) (st : GroupState) : Prop :=
  keysNodup st.file_hashes ∧ keysNodup st.duplicates ∧
  ∀ h : String,
    lookupA st.file_hashes h = (groupedPaths files h).head? ∧
    lookupA st.duplicates h =
      (if 2 ≤ (groupedPaths files h).length then some (groupedPaths files h)
       else none)

theorem inv_nil : Inv [] initGS := by
  refine ⟨by simp [keysNodup, initGS], by simp [keysNodup, initGS], fun h => ?_⟩
  simp [initGS, lookupA, groupedPaths]

theorem groupedPaths_append (l1 l2 : List FSEntry) (h : String) :
    groupedPaths (l1 ++ l2) h = groupedPaths l1 h ++ groupedPaths l2 h := by
  simp [groupedPaths, List.filterMap_append]

theorem groupedPaths_singleton_of_good (e : FSEntry) (h : String)
    (hg : goodHash e h = true) : groupedPaths [e] h = [e.path] := by
  simp [groupedPaths, hg]

theorem groupedPaths_singleton_of_bad (e : FSEntry) (h : String)
    (hg : goodHash e h = false) : groupedPaths [e] h = [] := by
  simp [groupedPaths, hg]

/-- A file that is skipped (empty or unreadable) is grouped under no
fingerprint. -/
theorem goodHash_false_of_skip (e : FSEntry) (h : String)
    (hskip : ¬ (0 < e.statSize.getD 0) ∨ e.content = none) :
    goodHash e h = false := by
  rcases hskip with hsz | hc
  · unfold goodHash
    match hc : e.content with
    | none => rfl
    | some c => simp [hsz]
  · simp [goodHash, hc]

theorem goodHash_false_of_ne (e : FSEntry) (c : List Nat) (h : String)
    (hc : e.content = some c) (hne : sha256hex c ≠ h) : goodHash e h = false := by
  simp [goodHash, hc, hne]

/-- Appending a skipped file leaves the characterisation intact. -/
theorem inv_append_skip {files : List FSEntry} {st : GroupState} {e : FSEntry}
    (hInv : Inv files st) (hskip : ∀ h, goodHash e h = false) :
    Inv (files ++ [e]) st := by
  obtain ⟨hnd1, hnd2, hchar⟩ := hInv
  refine ⟨hnd1, hnd2, fun h => ?_⟩
  rw [groupedPaths_append, groupedPaths_singleton_of_bad _ _ (hskip h),
    List.append_nil]
  exact hchar h

/-- Appending a hashed file updates the characterisation through
`insertHash`. -/
theorem inv_append_insert {files : List FSEntry} {st : GroupState} {e : FSEntry}
    (c : List Nat) (hInv : Inv files st) (hsz : 0 < e.statSize.getD 0)
    (hc : e.content = some c) :
    Inv (files ++ [e]) (insertHash st (sha256hex c) e.path) := by
  obtain ⟨hnd1, hnd2, hchar⟩ := hInv
  have hgood : goodHash e (sha256hex c) = true := by simp [goodHash, hc, hsz]
  have hgp : ∀ h, groupedPaths (files ++ [e]) h =
      groupedPaths files h ++ (if h = sha256hex c then [e.path] else []) := by
    intro h
    rw [groupedPaths_append]
    by_cases hh : h = sha256hex c
    · subst hh; rw [groupedPaths_singleton_of_good _ _ hgood, if_pos rfl]
    · rw [groupedPaths_singleton_of_bad _ _
        (goodHash_false_of_ne e c h hc (fun hx => hh hx.symm)), if_neg hh]
  obtain ⟨hfh0, hdup0⟩ := hchar (sha256hex c)
  cases hocc : groupedPaths files (sha256hex c) with
  | nil =>
      have hfh' : lookupA st.file_hashes (sha256hex c) = none := by
        rw [hfh0, hocc]; rfl
      rw [insertHash_first st _ e.path hfh']
      refine ⟨keysNodup_setA _ _ _ hnd1, hnd2, fun h => ?_⟩
      by_cases hh : h = sha256hex c
      · subst hh
        constructor
        · rw [lookupA_setA_self, hgp, hocc]; simp
        · rw [hgp, hocc]
          have : lookupA st.duplicates (sha256hex c) = none := by
            rw [hdup0, hocc]; rfl
          simpa using this
      · have hne : sha256hex c ≠ h := fun hx => hh hx.symm
        constructor
        · rw [lookupA_setA_ne _ _ hne, hgp, if_neg hh, List.append_nil]
          exact (hchar h).1
        · rw [hgp, if_neg hh, List.append_nil]
          exact (hchar h).2
  | cons q tl =>
      have hfh' : lookupA st.file_hashes (sha256hex c) = some q := by
        rw [hfh0, hocc]; rfl
      cases tl with
      | nil =>
          have hdup' : lookupA st.duplicates (sha256hex c) = none := by
            rw [hdup0, hocc]; norm_num
          rw [insertHash_second st _ e.path q hfh' hdup']
          refine ⟨hnd1, keysNodup_setA _ _ _ (keysNodup_setA _ _ _ hnd2),
            fun h => ?_⟩
          by_cases hh : h = sha256hex c
          · subst hh
            constructor
            · rw [hfh', hgp, hocc]; simp
            · rw [lookupA_setA_self, hgp, hocc]; simp
          · have hne : sha256hex c ≠ h := fun hx => hh hx.symm
            constructor
            · rw [hgp, if_neg hh, List.append_nil]; exact (hchar h).1
            · rw [lookupA_setA_ne _ _ hne, lookupA_setA_ne _ _ hne, hgp,
                if_neg hh, List.append_nil]
              exact (hchar h).2
      | cons q2 tl2 =>
          have hdup' : lookupA st.duplicates (sha256hex c) = some (q :: q2 :: tl2) := by
            rw [hdup0, hocc]
            have : 2 ≤ (q :: q2 :: tl2).length := by simp
            rw [if_pos this]
          rw [insertHash_later st _ e.path q (q :: q2 :: tl2) hfh' hdup']
          refine ⟨hnd1, keysNodup_setA _ _ _ hnd2, fun h => ?_⟩
          by_cases hh : h = sha256hex c
          · subst hh
            constructor
            · rw [hfh', hgp, hocc]; simp
            · rw [lookupA_setA_self, hgp, hocc]; simp
          · have hne : sha256hex c ≠ h := fun hx => hh hx.symm
            constructor
            · rw [hgp, if_neg hh, List.append_nil]; exact (hchar h).1
            · rw [lookupA_setA_ne _ _ hne, hgp, if_neg hh, List.append_nil]
              exact (hchar h).2

/-- One accepted walk step preserves the characterisation. -/
theorem inv_step {files : List FSEntry} {st st' : GroupState} {e : FSEntry}
    (hInv : Inv files st) (hstep : stepResult st e = .ok st') :
    Inv (files ++ [e]) st' := by
  obtain ⟨p, ss, cont⟩ := e
  cases ss with
  | none => simp [stepResult] at hstep
  | some sz =>
      by_cases hsz : 0 < sz
      · cases cont with
        | none =>
            have hstep' : st = st' := by
              simpa [stepResult, hsz, calculate_hash] using hstep
            subst hstep'
            exact inv_append_skip hInv
              (fun h => goodHash_false_of_skip _ h (Or.inr rfl))
        | some c =>
            have hstep' : insertHash st (sha256hex c) p = st' := by
              simpa [stepResult, hsz, calculate_hash, sha256hex_ne_empty c]
                using hstep
            subst hstep'
            exact inv_append_insert c hInv (by simpa using hsz) rfl
      · have hstep' : st = st' := by simpa [stepResult, hsz] using hstep
        subst hstep'
        exact inv_append_skip hInv fun h =>
          goodHash_false_of_skip _ h (Or.inl (by simpa using hsz))

/-- The walk preserves the characterisation along any accepted run. -/
theorem inv_walk (files : List FSEntry) :
    ∀ (pre : List FSEntry) (st st' : GroupState), Inv pre st →
      (scanWalk st files).2 = .ok st' → Inv (pre ++ files) st' := by
  induction files with
  | nil =>
      intro pre st st' hInv hok
      simp only [scanWalk, Except.ok.injEq] at hok
      subst hok
      simpa using hInv
  | cons e rest ih =>
      intro pre st st' hInv hok
      unfold scanWalk at hok
      cases hstep : stepResult st e with
      | error msg => rw [hstep] at hok; simp at hok
      | ok st1 =>
          rw [hstep] at hok
          simp only at hok
          have h1 := inv_step hInv hstep
          have h2 := ih (pre ++ [e]) st1 st' h1 hok
          simpa [List.append_assoc] using h2

/-- The scan state reached from the start is characterised by the walked
files. -/
theorem inv_scan (files : List FSEntry) (st' : GroupState)
    (hok : (scanWalk initGS files).2 = .ok st') : Inv files st' := by
  have := inv_walk files [] initGS st' inv_nil hok
  simpa using this

/-!
## Walk unfolding and trace lemmas
-/

theorem scanWalk_nil (st : GroupState) : scanWalk st [] = ([], .ok st) := rfl

theorem scanWalk_cons_error (st : GroupState) (e : FSEntry) (rest : List FSEntry)
    (msg : String) (hstep : stepResult st e = .error msg) :
    scanWalk st (e :: rest) = (stepEvents e, .error msg) := by
  unfold scanWalk; rw [hstep]

theorem scanWalk_cons_ok (st : GroupState) (e : FSEntry) (rest : List FSEntry)
    (st1 : GroupState) (hstep : stepResult st e = .ok st1) :
    scanWalk st (e :: rest) =
      (stepEvents e ++ (scanWalk st1 rest).1, (scanWalk st1 rest).2) := by
  conv_lhs => rw [scanWalk]
  rw [hstep]

/-- Every event of the walk's trace arises from processing one walked file. -/
theorem scanWalk_events_sourced (files : List FSEntry) :
    ∀ (st : GroupState) (ev : Event), ev ∈ (scanWalk st files).1 →
      ∃ e ∈ files, ev ∈ stepEvents e := by
  induction files with
  | nil => intro st ev h; simp [scanWalk_nil] at h
  | cons e rest ih =>
      intro st ev h
      cases hstep : stepResult st e with
      | error msg =>
          rw [scanWalk_cons_error st e rest msg hstep] at h
          exact ⟨e, by simp, h⟩
      | ok st1 =>
          rw [scanWalk_cons_ok st e rest st1 hstep] at h
          rcases List.mem_append.mp h with h1 | h2
          · exact ⟨e, by simp, h1⟩
          · obtain ⟨e', he', hev⟩ := ih st1 ev h2
            exact ⟨e', by simp [he'], hev⟩

/-- The walk only ever stats and hashes; a hash event moreover requires the
size check to have passed. -/
theorem stepEvents_shape (e : FSEntry) (ev : Event) (h : ev ∈ stepEvents e) :
    ev = .statFile e.path ∨
      (ev = .hashFile e.path ∧ ∃ sz, e.statSize = some sz ∧ 0 < sz) := by
  obtain ⟨p, ss, cont⟩ := e
  cases ss with
  | none => simp [stepEvents] at h; simp [h]
  | some sz =>
      by_cases hsz : 0 < sz
      · simp only [stepEvents, if_pos hsz] at h
        rcases List.mem_cons.mp h with h | h
        · simp [h]
        · rcases List.mem_singleton.mp h with rfl
          exact Or.inr ⟨rfl, sz, rfl, hsz⟩
      · simp only [stepEvents, if_neg hsz] at h
        rcases List.mem_singleton.mp h with rfl
        simp

/-- A step always succeeds when the size check does not raise. -/
theorem stepResult_isOk (st : GroupState) (e : FSEntry)
    (hsome : e.statSize.isSome) : ∃ st1, stepResult st e = .ok st1 := by
  obtain ⟨p, ss, cont⟩ := e
  obtain ⟨sz, rfl⟩ := Option.isSome_iff_exists.mp hsome
  by_cases hsz : 0 < sz
  · cases cont with
    | none => exact ⟨st, by simp [stepResult, hsz, calculate_hash]⟩
    | some c =>
        exact ⟨insertHash st (sha256hex c) p,
          by simp [stepResult, hsz, calculate_hash, sha256hex_ne_empty c]⟩
  · exact ⟨st, by simp [stepResult, hsz]⟩

/-- A step on an empty or unreadable file leaves the state untouched. -/
theorem stepResult_skip (st : GroupState) (e : FSEntry)
    (hsome : e.statSize.isSome) (hkeep : keepFile e = false) :
    stepResult st e = .ok st := by
  obtain ⟨p, ss, cont⟩ := e
  obtain ⟨sz, rfl⟩ := Option.isSome_iff_exists.mp hsome
  by_cases hsz : 0 < sz
  · cases cont with
    | none => simp [stepResult, hsz, calculate_hash]
    | some c => simp [keepFile, hsz] at hkeep
  · simp [stepResult, hsz]

/-- When every walked file can still be stat'ed, the walk never aborts and its
result is that of walking only the kept (non-empty, readable) files: per-file
hashing failures merely exclude the file. -/
theorem scanWalk_filter_eq (files : List FSEntry)
    (hstat : ∀ e ∈ files, e.statSize.isSome) :
    ∀ st : GroupState,
      (scanWalk st (files.filter keepFile)).2 = (scanWalk st files).2 ∧
      ∃ st', (scanWalk st files).2 = .ok st' := by
  induction files with
  | nil => intro st; exact ⟨rfl, st, rfl⟩
  | cons e rest ih =>
      intro st
      have hstat1 : e.statSize.isSome := hstat e (by simp)
      have hstat' : ∀ e' ∈ rest, e'.statSize.isSome :=
        fun e' h => hstat e' (by simp [h])
      obtain ⟨st1, hst1⟩ := stepResult_isOk st e hstat1
      by_cases hkeep : keepFile e = true
      · rw [List.filter_cons_of_pos hkeep, scanWalk_cons_ok st e rest st1 hst1,
          scanWalk_cons_ok st e (rest.filter keepFile) st1 hst1]
        exact (ih hstat' st1)
      · have hskip : stepResult st e = .ok st :=
          stepResult_skip st e hstat1 (Bool.not_eq_true _ ▸ hkeep)
        have hst_eq : st1 = st := by
          have := hskip ▸ hst1; injection this with h
          exact h.symm
        rw [List.filter_cons_of_neg (by simpa using hkeep),
          scanWalk_cons_ok st e rest st hskip]
        exact ih hstat' st

/-!
## Deletion lemmas
-/

/-- Whether the attempted removal of `p` succeeds: both the pre-deletion
`getsize` and the `os.remove` call go through. -/
def delSuccess (env : DeleteEnv) (p : String) : Bool :=
  (env.size p).isSome && env.removeOk p

theorem deletedFiles_append (l1 l2 : List Event) :
    deletedFiles (l1 ++ l2) = deletedFiles l1 ++ deletedFiles l2 := by
  simp [deletedFiles, List.filterMap_append]

theorem removedCalls_append (l1 l2 : List Event) :
    removedCalls (l1 ++ l2) = removedCalls l1 ++ removedCalls l2 := by
  simp [removedCalls, List.filterMap_append]

theorem deleteOne_deletedFiles (env : DeleteEnv) (p : String) :
    deletedFiles (deleteOne env p).1 = if delSuccess env p then [p] else [] := by
  unfold deleteOne delSuccess
  cases h : env.size p with
  | none => simp [deletedFiles]
  | some s =>
      by_cases hr : env.removeOk p <;> simp [hr, deletedFiles]

theorem deleteOne_removedCalls (env : DeleteEnv) (p : String) :
    removedCalls (deleteOne env p).1 =
      if (env.size p).isSome then [p] else [] := by
  unfold deleteOne
  cases h : env.size p with
  | none => simp [removedCalls]
  | some s =>
      by_cases hr : env.removeOk p <;> simp [hr, removedCalls]

theorem deleteOne_count (env : DeleteEnv) (p : String) :
    (deleteOne env p).2.1 = if delSuccess env p then 1 else 0 := by
  unfold deleteOne delSuccess
  cases h : env.size p with
  | none => simp
  | some s => by_cases hr : env.removeOk p <;> simp [hr]

theorem deleteOne_space (env : DeleteEnv) (p : String) :
    (deleteOne env p).2.2 =
      if delSuccess env p then (env.size p).getD 0 else 0 := by
  unfold deleteOne delSuccess
  cases h : env.size p with
  | none => simp
  | some s => by_cases hr : env.removeOk p <;> simp [h, hr]

theorem deletePaths_deletedFiles (env : DeleteEnv) (ps : List String) :
    deletedFiles (deletePaths env ps).1 = ps.filter (delSuccess env) := by
  induction ps with
  | nil => simp [deletePaths, deletedFiles]
  | cons p rest ih =>
      simp only [deletePaths, deletedFiles_append, ih, deleteOne_deletedFiles]
      by_cases hs : delSuccess env p <;> simp [hs, List.filter_cons]

theorem deletePaths_removedCalls (env : DeleteEnv) (ps : List String) :
    removedCalls (deletePaths env ps).1 =
      ps.filter (fun p => (env.size p).isSome) := by
  induction ps with
  | nil => simp [deletePaths, removedCalls]
  | cons p rest ih =>
      simp only [deletePaths, removedCalls_append, ih, deleteOne_removedCalls]
      by_cases hs : (env.size p).isSome <;> simp [hs, List.filter_cons]

theorem deletePaths_count (env : DeleteEnv) (ps : List String) :
    (deletePaths env ps).2.1 = (ps.filter (delSuccess env)).length := by
  induction ps with
  | nil => simp [deletePaths]
  | cons p rest ih =>
      simp only [deletePaths, deleteOne_count, ih]
      by_cases hs : delSuccess env p <;> simp [hs, List.filter_cons, Nat.add_comm]

theorem deletePaths_space (env : DeleteEnv) (ps : List String) :
    (deletePaths env ps).2.2 =
      ((ps.filter (delSuccess env)).map fun p => (env.size p).getD 0).sum := by
  induction ps with
  | nil => simp [deletePaths]
  | cons p rest ih =>
      simp only [deletePaths, deleteOne_space, ih]
      by_cases hs : delSuccess env p <;> simp [hs, List.filter_cons]

/-- The non-first paths of all groups, in processing order. -/
def tailPaths (dups : List (String × List String)) : List String :=
  (dups.map fun g => g.2.tail).flatten

theorem deleteGroups_deletedFiles (env : DeleteEnv)
    (dups : List (String × List String)) :
    deletedFiles (deleteGroups env dups).1 =
      (tailPaths dups).filter (delSuccess env) := by
  induction dups with
  | nil => simp [deleteGroups, deletedFiles, tailPaths]
  | cons g rest ih =>
      simp [deleteGroups, deletedFiles_append, ih, deletePaths_deletedFiles,
        tailPaths, List.filter_append]

theorem deleteGroups_removedCalls (env : DeleteEnv)
    (dups : List (String × List String)) :
    removedCalls (deleteGroups env dups).1 =
      (tailPaths dups).filter (fun p => (env.size p).isSome) := by
  induction dups with
  | nil => simp [deleteGroups, removedCalls, tailPaths]
  | cons g rest ih =>
      simp [deleteGroups, removedCalls_append, ih, deletePaths_removedCalls,
        tailPaths, List.filter_append]

theorem deleteGroups_count (env : DeleteEnv)
    (dups : List (String × List String)) :
    (deleteGroups env dups).2.1 =
      ((tailPaths dups).filter (delSuccess env)).length := by
  induction dups with
  | nil => simp [deleteGroups, tailPaths]
  | cons g rest ih =>
      simp [deleteGroups, ih, deletePaths_count, tailPaths, List.filter_append]

theorem deleteGroups_space (env : DeleteEnv)
    (dups : List (String × List String)) :
    (deleteGroups env dups).2.2 =
      (((tailPaths dups).filter (delSuccess env)).map
        fun p => (env.size p).getD 0).sum := by
  induction dups with
  | nil => simp [deleteGroups, tailPaths]
  | cons g rest ih =>
      simp [deleteGroups, ih, deletePaths_space, tailPaths, List.filter_append]

theorem delete_duplicates_deletedFiles (env : DeleteEnv)
    (dups : List (String × List String)) :
    deletedFiles (delete_duplicates env dups).1 =
      (tailPaths dups).filter (delSuccess env) := by
  unfold delete_duplicates
  by_cases hd : dups = []
  · subst hd; simp [deletedFiles, tailPaths]
  · rw [if_neg hd]; exact deleteGroups_deletedFiles env dups

theorem delete_duplicates_removedCalls (env : DeleteEnv)
    (dups : List (String × List String)) :
    removedCalls (delete_duplicates env dups).1 =
      (tailPaths dups).filter (fun p => (env.size p).isSome) := by
  unfold delete_duplicates
  by_cases hd : dups = []
  · subst hd; simp [removedCalls, tailPaths]
  · rw [if_neg hd]; exact deleteGroups_removedCalls env dups

theorem delete_duplicates_count (env : DeleteEnv)
    (dups : List (String × List String)) :
    (delete_duplicates env dups).2.1 =
      ((tailPaths dups).filter (delSuccess env)).length := by
  unfold delete_duplicates
  by_cases hd : dups = []
  · subst hd; simp [tailPaths]
  · rw [if_neg hd]; exact deleteGroups_count env dups

theorem delete_duplicates_space (env : DeleteEnv)
    (dups : List (String × List String)) :
    (delete_duplicates env dups).2.2 =
      (((tailPaths dups).filter (delSuccess env)).map
        fun p => (env.size p).getD 0).sum := by
  unfold delete_duplicates
  by_cases hd : dups = []
  · subst hd; simp [tailPaths]
  · rw [if_neg hd]; exact deleteGroups_space env dups

/-!
## Support lemmas for the claims
-/

theorem goodHash_true_elim {e : FSEntry} {h : String}
    (hg : goodHash e h = true) :
    0 < e.statSize.getD 0 ∧ ∃ c, e.content = some c ∧ sha256hex c = h := by
  unfold goodHash at hg
  cases hc : e.content with
  | none => rw [hc] at hg; simp at hg
  | some c =>
      rw [hc] at hg
      simp only [Bool.and_eq_true, decide_eq_true_eq] at hg
      exact ⟨hg.1, c, rfl, hg.2⟩

theorem mem_groupedPaths {files : List FSEntry} {h q : String} :
    q ∈ groupedPaths files h ↔
      ∃ e ∈ files, e.path = q ∧ goodHash e h = true := by
  unfold groupedPaths
  rw [List.mem_filterMap]
  constructor
  · rintro ⟨e, he, hf⟩
    by_cases hg : goodHash e h = true
    · rw [if_pos hg, Option.some.injEq] at hf
      exact ⟨e, he, hf, hg⟩
    · rw [if_neg hg] at hf; exact absurd hf (by simp)
  · rintro ⟨e, he, hpath, hg⟩
    exact ⟨e, he, by rw [if_pos hg, hpath]⟩

theorem mem_of_head?_eq {α : Type} {l : List α} {q : α}
    (h : l.head? = some q) : q ∈ l := by
  cases l with
  | nil => simp at h
  | cons a tl =>
      simp only [List.head?_cons, Option.some.injEq] at h
      exact h ▸ List.mem_cons_self a tl

theorem tailPaths_subset (dups : List (String × List String)) :
    tailPaths dups ⊆ (dups.map Prod.snd).flatten := by
  induction dups with
  | nil => simp [tailPaths]
  | cons g rest ih =>
      simp only [tailPaths, List.map_cons, List.flatten_cons] at *
      exact List.append_subset.mpr
        ⟨(List.tail_sublist g.2).subset.trans (List.subset_append_left _ _),
         ih.trans (List.subset_append_right _ _)⟩

/-- With all paths distinct across groups, the head of any group is never
among the non-first paths of any group. -/
theorem head_not_mem_tailPaths :
    ∀ (dups : List (String × List String)),
      ((dups.map Prod.snd).flatten).Nodup →
      ∀ g ∈ dups, ∀ (o : String) (ps : List String), g.2 = o :: ps →
        o ∉ tailPaths dups := by
  intro dups
  induction dups with
  | nil => intro _ g hg; simp at hg
  | cons g0 rest ih =>
      intro hnd g hg o ps hps hmem
      simp only [List.map_cons, List.flatten_cons, List.nodup_append] at hnd
      obtain ⟨hnd0, hndrest, hdisj⟩ := hnd
      have hmem' : o ∈ g0.2.tail ++ tailPaths rest := by
        simpa [tailPaths] using hmem
      rcases List.mem_append.mp hmem' with h1 | h2
      · -- o sits in the first group's tail
        rcases List.mem_cons.mp hg with rfl | hgr
        · rw [hps] at h1 hnd0
          simp only [List.tail_cons] at h1
          exact (List.nodup_cons.mp hnd0).1 h1
        · have ho : o ∈ g.2 := hps ▸ List.mem_cons_self o ps
          have hoflat : o ∈ (rest.map Prod.snd).flatten := by
            rw [List.mem_flatten]
            exact ⟨g.2, List.mem_map_of_mem Prod.snd hgr, ho⟩
          exact hdisj ((List.tail_sublist g0.2).subset h1) hoflat
      · -- o sits in a later group's tail
        rcases List.mem_cons.mp hg with rfl | hgr
        · have ho : o ∈ g.2 := hps ▸ List.mem_cons_self o ps
          exact hdisj ho (tailPaths_subset rest h2)
        · exact ih hndrest g hgr o ps hps h2

/-- A `removeCall` event is in a trace exactly when its path is among the
trace's removal calls. -/
theorem removedCalls_spec (evs : List Event) (p : String) :
    Event.removeCall p ∈ evs ↔ p ∈ removedCalls evs := by
  unfold removedCalls
  rw [List.mem_filterMap]
  constructor
  · intro h
    exact ⟨Event.removeCall p, h, rfl⟩
  · rintro ⟨ev, hev, hf⟩
    cases ev <;> simp_all

/-- The scan phase never calls `os.remove` and never deletes: its trace holds
only dialogs, stats and hash computations. -/
theorem find_trace_no_removes (inp : ScanInput) (p : String) :
    Event.removeCall p ∉ (find_duplicate_files inp).1 ∧
    Event.deleteFile p ∉ (find_duplicate_files inp).1 := by
  by_cases hdir : inp.isDir = true
  · have htr : (find_duplicate_files inp).1 = (scanWalk initGS inp.files).1 := by
      simp [find_duplicate_files, hdir]
    rw [htr]
    constructor <;> intro hmem <;>
      obtain ⟨e, _, hev⟩ := scanWalk_events_sourced inp.files initGS _ hmem <;>
      rcases stepEvents_shape e _ hev with h | ⟨h, _⟩ <;> simp at h
  · have hdir' : inp.isDir = false := by simpa using hdir
    simp [find_duplicate_files, hdir']

/-!
## The claims
-/

set_option maxRecDepth 10000

/-- **C1, counterexample**: a file that vanishes between being listed by the
walk and being processed aborts the whole batch. On `filesGhost` the scan ends
in the uncaught `OSError` (`Except.error`), although the very same directory
without the vanished file (`filesDup`) scans to completion and finds the
duplicate group — so the failing file is not "merely excluded". -/
theorem scan_aborts_on_vanished_file_counterexample :
    (find_duplicate_files ⟨true, filesGhost⟩).2 = Except.error "/scan/ghost.txt" ∧
    (find_duplicate_files ⟨true, filesDup⟩).2 = Except.ok dupsX :=
  ⟨rfl, rfl⟩

/-- **C1 (amended)**: provided every walked file can still be stat'ed when its
size is checked, a failure local to one file (its `open`/`read` raising during
hashing) never aborts the batch: the scan completes, and its result is that of
scanning with the failing (and empty) files absent. A file that vanishes
before its size check, however, aborts the scan (see the counterexample). -/
theorem scan_local_failure_excluded (inp : ScanInput) (hdir : inp.isDir = true)
    (hstat : ∀ e ∈ inp.files, e.statSize.isSome) :
    (find_duplicate_files inp).2 =
      (find_duplicate_files ⟨true, inp.files.filter keepFile⟩).2 ∧
    ∃ d, (find_duplicate_files inp).2 = Except.ok d := by
  obtain ⟨heq, st', hok⟩ := scanWalk_filter_eq inp.files hstat initGS
  constructor
  · simp only [find_duplicate_files, hdir, if_true]
    rw [heq]
  · refine ⟨st'.duplicates, ?_⟩
    simp only [find_duplicate_files, hdir, if_true]
    rw [hok]
    rfl

theorem scan_local_failure_excluded_witness :
    (find_duplicate_files ⟨true, filesUnread⟩).2 =
      (find_duplicate_files ⟨true, filesUnread.filter keepFile⟩).2 ∧
    ∃ d, (find_duplicate_files ⟨true, filesUnread⟩).2 = Except.ok d :=
  scan_local_failure_excluded ⟨true, filesUnread⟩ rfl (by decide)

/-- **C2**: a file that cannot be opened or read gets the sentinel `none`
(never an exception) from `calculate_hash`, and a path all of whose walk
entries are unreadable is inserted neither into the FingerprintIndex
(`file_hashes`) nor into any duplicate group. -/
theorem unavailable_fingerprint_never_grouped (inp : ScanInput)
    (st' : GroupState) (p : String) (hdir : inp.isDir = true)
    (hok : (scanWalk initGS inp.files).2 = Except.ok st')
    (hp : ∀ e ∈ inp.files, e.path = p → e.content = none) :
    (∀ e : FSEntry, e.content = none → calculate_hash e = none) ∧
    (find_duplicate_files inp).2 = Except.ok st'.duplicates ∧
    (∀ h q, (h, q) ∈ st'.file_hashes → q ≠ p) ∧
    (∀ h ps, (h, ps) ∈ st'.duplicates → p ∉ ps) := by
  obtain ⟨hnd1, hnd2, hchar⟩ := inv_scan inp.files st' hok
  have hnotgrouped : ∀ h : String, p ∉ groupedPaths inp.files h := by
    intro h hmem
    obtain ⟨e, he, hpath, hg⟩ := mem_groupedPaths.mp hmem
    obtain ⟨-, c, hc, -⟩ := goodHash_true_elim hg
    rw [hp e he hpath] at hc
    exact absurd hc (by simp)
  refine ⟨fun e he => by simp [calculate_hash, he], ?_, ?_, ?_⟩
  · simp only [find_duplicate_files, hdir, if_true]
    rw [hok]
    rfl
  · intro h q hmem heq
    have hlk := lookupA_eq_some_of_mem hnd1 hmem
    rw [(hchar h).1] at hlk
    exact hnotgrouped h (heq ▸ mem_of_head?_eq hlk)
  · intro h ps hmem hpin
    have hlk := lookupA_eq_some_of_mem hnd2 hmem
    rw [(hchar h).2] at hlk
    by_cases hlen : 2 ≤ (groupedPaths inp.files h).length
    · rw [if_pos hlen, Option.some.injEq] at hlk
      exact hnotgrouped h (hlk ▸ hpin)
    · rw [if_neg hlen] at hlk
      exact absurd hlk (by simp)

theorem unavailable_fingerprint_never_grouped_witness :
    (∀ e : FSEntry, e.content = none → calculate_hash e = none) ∧
    (find_duplicate_files ⟨true, filesUnread⟩).2 = Except.ok stDup.duplicates ∧
    (∀ h q, (h, q) ∈ stDup.file_hashes → q ≠ "/scan/locked.txt") ∧
    (∀ h ps, (h, ps) ∈ stDup.duplicates → "/scan/locked.txt" ∉ ps) :=
  unavailable_fingerprint_never_grouped ⟨true, filesUnread⟩ stDup
    "/scan/locked.txt" rfl rfl (by decide)

/-- **C3**: the remover never calls `os.remove` on the first-discovered path of
any group, and — provided every attempted removal succeeds — deletes exactly
the paths at index ≥ 1, that is (group size − 1) paths per group. Paths are
assumed pairwise distinct across the DuplicateSet, as the walk yields each
file once. -/
theorem remover_spares_original_deletes_rest (env : DeleteEnv)
    (dups : List (String × List String))
    (hnd : ((dups.map Prod.snd).flatten).Nodup) :
    (∀ g ∈ dups, ∀ (o : String) (ps : List String), g.2 = o :: ps →
        Event.removeCall o ∉ (delete_duplicates env dups).1 ∧
        o ∉ deletedFiles (delete_duplicates env dups).1) ∧
    ((∀ p ∈ tailPaths dups, delSuccess env p = true) →
        deletedFiles (delete_duplicates env dups).1 = tailPaths dups ∧
        (delete_duplicates env dups).2.1 =
          (dups.map fun g => g.2.length - 1).sum) := by
  constructor
  · intro g hg o ps hps
    have ho := head_not_mem_tailPaths dups hnd g hg o ps hps
    constructor
    · intro hmem
      have h1 : o ∈ removedCalls (delete_duplicates env dups).1 :=
        (removedCalls_spec _ o).mp hmem
      rw [delete_duplicates_removedCalls] at h1
      exact ho (List.mem_of_mem_filter h1)
    · intro hmem
      rw [delete_duplicates_deletedFiles] at hmem
      exact ho (List.mem_of_mem_filter hmem)
  · intro hsucc
    constructor
    · rw [delete_duplicates_deletedFiles, List.filter_eq_self.mpr hsucc]
    · rw [delete_duplicates_count, List.filter_eq_self.mpr hsucc, tailPaths,
        List.length_flatten, List.map_map]
      simp [Function.comp_def, List.length_tail]

theorem remover_spares_original_witness :
    (Event.removeCall "/d/orig.txt" ∉ (delete_duplicates envAllOk dupsTriple).1 ∧
      "/d/orig.txt" ∉ deletedFiles (delete_duplicates envAllOk dupsTriple).1) ∧
    deletedFiles (delete_duplicates envAllOk dupsTriple).1 = tailPaths dupsTriple ∧
    (delete_duplicates envAllOk dupsTriple).2.1 = 2 := by
  obtain ⟨h1, h2⟩ :=
    remover_spares_original_deletes_rest envAllOk dupsTriple (by decide)
  obtain ⟨hdel, hcnt⟩ := h2 (by decide)
  exact ⟨h1 (hashX, ["/d/orig.txt", "/d/copy1.txt", "/d/copy2.txt"])
      (by simp [dupsTriple]) "/d/orig.txt" _ rfl,
    hdel, by rw [hcnt]; decide⟩

/-- **C4**: a path all of whose walk entries are zero-byte files enters neither
the FingerprintIndex nor any duplicate group, and is never even hashed: a hash
event requires a strictly positive size. -/
theorem zero_byte_never_grouped (inp : ScanInput) (st' : GroupState)
    (p : String) (hok : (scanWalk initGS inp.files).2 = Except.ok st')
    (hp : ∀ e ∈ inp.files, e.path = p → e.statSize = some 0) :
    (∀ h q, (h, q) ∈ st'.file_hashes → q ≠ p) ∧
    (∀ h ps, (h, ps) ∈ st'.duplicates → p ∉ ps) ∧
    Event.hashFile p ∉ (scanWalk initGS inp.files).1 := by
  obtain ⟨hnd1, hnd2, hchar⟩ := inv_scan inp.files st' hok
  have hnotgrouped : ∀ h : String, p ∉ groupedPaths inp.files h := by
    intro h hmem
    obtain ⟨e, he, hpath, hg⟩ := mem_groupedPaths.mp hmem
    obtain ⟨hpos, -⟩ := goodHash_true_elim hg
    rw [hp e he hpath] at hpos
    simp at hpos
  refine ⟨?_, ?_, ?_⟩
  · intro h q hmem heq
    have hlk := lookupA_eq_some_of_mem hnd1 hmem
    rw [(hchar h).1] at hlk
    exact hnotgrouped h (heq ▸ mem_of_head?_eq hlk)
  · intro h ps hmem hpin
    have hlk := lookupA_eq_some_of_mem hnd2 hmem
    rw [(hchar h).2] at hlk
    by_cases hlen : 2 ≤ (groupedPaths inp.files h).length
    · rw [if_pos hlen, Option.some.injEq] at hlk
      exact hnotgrouped h (hlk ▸ hpin)
    · rw [if_neg hlen] at hlk
      exact absurd hlk (by simp)
  · intro hmem
    obtain ⟨e, he, hev⟩ := scanWalk_events_sourced inp.files initGS _ hmem
    rcases stepEvents_shape e _ hev with h | ⟨h, sz, hsz, hpos⟩
    · simp at h
    · have hpath : e.path = p := by
        injection h.symm  -- Event.hashFile e.path = Event.hashFile p
      rw [hp e he hpath] at hsz
      injection hsz with hsz'
      omega

theorem zero_byte_never_grouped_witness :
    (∀ h q, (h, q) ∈ stDup.file_hashes → q ≠ "/scan/empty.txt") ∧
    (∀ h ps, (h, ps) ∈ stDup.duplicates → "/scan/empty.txt" ∉ ps) ∧
    Event.hashFile "/scan/empty.txt" ∉ (scanWalk initGS filesDup).1 :=
  zero_byte_never_grouped ⟨true, filesDup⟩ stDup "/scan/empty.txt" rfl
    (by decide)

/-- **C5**: on a valid directory, the scan's output contains exactly the
fingerprints with at least two grouped paths — each group holding all of its
fingerprint's discovered paths in discovery order, hence of length ≥ 2 — and
an empty output is the valid no-duplicates outcome: the main flow then shows
only the "No Duplicates Found" report, with no confirmation prompt and no
deletion. -/
theorem grouper_output_characterised (inp : ScanInput)
    (d : List (String × List String)) (env : DeleteEnv) (dec : Decision)
    (hdir : inp.isDir = true)
    (hok : (find_duplicate_files inp).2 = Except.ok d) :
    (∀ h ps, (h, ps) ∈ d ↔
        (2 ≤ (groupedPaths inp.files h).length ∧
          ps = groupedPaths inp.files h)) ∧
    (∀ h ps, (h, ps) ∈ d → 2 ≤ ps.length) ∧
    (d = [] → mainAfterScan env dec d =
        [Event.infoDialog "No Duplicates Found"
          "No duplicate files were found in the selected folder."]) := by
  simp only [find_duplicate_files, hdir, if_true] at hok
  obtain ⟨st', hsw, hd⟩ : ∃ st', (scanWalk initGS inp.files).2 = Except.ok st' ∧
      st'.duplicates = d := by
    cases hsw : (scanWalk initGS inp.files).2 with
    | error m => rw [hsw] at hok; exact absurd hok (by simp [Except.map])
    | ok st' =>
        rw [hsw] at hok
        simp only [Except.map, Except.ok.injEq] at hok
        exact ⟨st', rfl, hok⟩
  obtain ⟨hnd1, hnd2, hchar⟩ := inv_scan inp.files st' hsw
  have hiff : ∀ h ps, (h, ps) ∈ d ↔
      (2 ≤ (groupedPaths inp.files h).length ∧
        ps = groupedPaths inp.files h) := by
    intro h ps
    constructor
    · intro hmem
      rw [← hd] at hmem
      have hlk := lookupA_eq_some_of_mem hnd2 hmem
      rw [(hchar h).2] at hlk
      by_cases hlen : 2 ≤ (groupedPaths inp.files h).length
      · rw [if_pos hlen, Option.some.injEq] at hlk
        exact ⟨hlen, hlk.symm⟩
      · rw [if_neg hlen] at hlk
        exact absurd hlk (by simp)
    · rintro ⟨hlen, rfl⟩
      rw [← hd]
      apply mem_of_lookupA_eq_some
      rw [(hchar h).2, if_pos hlen]
  refine ⟨hiff, ?_, ?_⟩
  · intro h ps hmem
    obtain ⟨hlen, hps⟩ := (hiff h ps).mp hmem
    rw [hps]
    exact hlen
  · rintro rfl
    simp [mainAfterScan]

theorem grouper_output_characterised_witness :
    ((hashX, ["/scan/a.txt", "/scan/b.txt"]) ∈ dupsX ↔
      (2 ≤ (groupedPaths filesDup hashX).length ∧
        ["/scan/a.txt", "/scan/b.txt"] = groupedPaths filesDup hashX)) ∧
    mainAfterScan envAllOk Decision.confirm [] =
      [Event.infoDialog "No Duplicates Found"
        "No duplicate files were found in the selected folder."] :=
  ⟨(grouper_output_characterised ⟨true, filesDup⟩ dupsX envAllOk
      Decision.confirm rfl rfl).1 hashX ["/scan/a.txt", "/scan/b.txt"],
   (grouper_output_characterised ⟨true, []⟩ [] envAllOk
      Decision.confirm rfl rfl).2.2 rfl⟩

/-- **C6**: the space-reclaimed total is exactly the sum of the pre-deletion
sizes of the successfully deleted files, the deleted-files count is exactly
their number, and a path whose removal attempt fails is never among the
deleted files (so it contributes to neither total). -/
theorem space_reclaimed_exact (env : DeleteEnv)
    (dups : List (String × List String)) :
    (delete_duplicates env dups).2.2 =
      ((deletedFiles (delete_duplicates env dups).1).map
        fun p => (env.size p).getD 0).sum ∧
    (delete_duplicates env dups).2.1 =
      (deletedFiles (delete_duplicates env dups).1).length ∧
    (∀ p, delSuccess env p = false →
      p ∉ deletedFiles (delete_duplicates env dups).1) := by
  refine ⟨?_, ?_, ?_⟩
  · rw [delete_duplicates_space, delete_duplicates_deletedFiles]
  · rw [delete_duplicates_count, delete_duplicates_deletedFiles]
  · intro p hfail hmem
    rw [delete_duplicates_deletedFiles] at hmem
    have := (List.mem_filter.mp hmem).2
    rw [hfail] at this
    exact absurd this (by simp)

theorem space_reclaimed_exact_witness :
    (delete_duplicates envOneFails dupsTriple).2.2 =
      ((deletedFiles (delete_duplicates envOneFails dupsTriple).1).map
        fun p => (envOneFails.size p).getD 0).sum ∧
    "/d/copy1.txt" ∉ deletedFiles (delete_duplicates envOneFails dupsTriple).1 :=
  ⟨(space_reclaimed_exact envOneFails dupsTriple).1,
   (space_reclaimed_exact envOneFails dupsTriple).2.2 "/d/copy1.txt" (by decide)⟩

/-- **C7**: when duplicates were found and the user declines the confirmation
prompt, the run performs no `os.remove` call and deletes nothing — the
filesystem is untouched — and reports the run as cancelled. -/
theorem cancel_deletes_nothing (inp : ScanInput) (env : DeleteEnv)
    (d : List (String × List String))
    (hok : (find_duplicate_files inp).2 = Except.ok d) (hne : d ≠ []) :
    mainModel inp env Decision.cancel =
      (find_duplicate_files inp).1 ++
        [Event.confirmPrompt "Do you want to delete these files?",
         Event.infoDialog "Cancelled" "No files were deleted."] ∧
    (∀ p, Event.removeCall p ∉ mainModel inp env Decision.cancel) ∧
    (∀ p, Event.deleteFile p ∉ mainModel inp env Decision.cancel) := by
  have hmain : mainModel inp env Decision.cancel =
      (find_duplicate_files inp).1 ++
        [Event.confirmPrompt "Do you want to delete these files?",
         Event.infoDialog "Cancelled" "No files were deleted."] := by
    simp only [mainModel]
    rw [hok]
    simp [mainAfterScan, hne]
  refine ⟨hmain, ?_, ?_⟩
  · intro p hmem
    rw [hmain] at hmem
    rcases List.mem_append.mp hmem with h1 | h2
    · exact (find_trace_no_removes inp p).1 h1
    · simp at h2
  · intro p hmem
    rw [hmain] at hmem
    rcases List.mem_append.mp hmem with h1 | h2
    · exact (find_trace_no_removes inp p).2 h1
    · simp at h2

theorem cancel_deletes_nothing_witness :
    mainModel ⟨true, filesDup⟩ envAllOk Decision.cancel =
      (find_duplicate_files ⟨true, filesDup⟩).1 ++
        [Event.confirmPrompt "Do you want to delete these files?",
         Event.infoDialog "Cancelled" "No files were deleted."] ∧
    Event.removeCall "/scan/b.txt" ∉
      mainModel ⟨true, filesDup⟩ envAllOk Decision.cancel := by
  have h := cancel_deletes_nothing ⟨true, filesDup⟩ envAllOk dupsX rfl
    (by decide)
  exact ⟨h.1, h.2.1 "/scan/b.txt"⟩

/-- **C8**: a scan root that is not a directory is rejected with an explicit
error dialog before any walking or hashing work: the whole observable trace is
that single dialog (no stat or hash event), and the returned dict is empty, so
no partial results exist to be shown. -/
theorem invalid_root_rejected_before_work (inp : ScanInput)
    (hdir : inp.isDir = false) :
    find_duplicate_files inp =
      ([Event.errorDialog "Error" "The selected path is not a valid directory."],
        Except.ok []) := by
  simp [find_duplicate_files, hdir]

theorem invalid_root_rejected_before_work_witness :
    find_duplicate_files ⟨false, filesDup⟩ =
      ([Event.errorDialog "Error" "The selected path is not a valid directory."],
        Except.ok []) :=
  invalid_root_rejected_before_work ⟨false, filesDup⟩ rfl

/-- **C9**: `calculate_hash` is a deterministic function of file content:
hashing the same entry twice gives the same fingerprint, entries with equal
byte content get equal fingerprints, and — absent a digest collision — entries
with differing byte content get differing fingerprints. -/
theorem hasher_deterministic :
    (∀ e : FSEntry, calculate_hash e = calculate_hash e) ∧
    (∀ e1 e2 : FSEntry, e1.content = e2.content →
      calculate_hash e1 = calculate_hash e2) ∧
    (∀ (e1 e2 : FSEntry) (c1 c2 : List Nat), e1.content = some c1 →
      e2.content = some c2 → sha256hex c1 ≠ sha256hex c2 →
      calculate_hash e1 ≠ calculate_hash e2) := by
  refine ⟨fun e => rfl, fun e1 e2 h => by simp [calculate_hash, h], ?_⟩
  intro e1 e2 c1 c2 h1 h2 hne
  simp [calculate_hash, h1, h2, hne]

theorem hasher_deterministic_witness :
    calculate_hash ⟨"/w/a.txt", some 1, some [120]⟩ =
      calculate_hash ⟨"/w/b.txt", some 9, some [120]⟩ ∧
    calculate_hash ⟨"/w/a.txt", some 1, some [120]⟩ ≠
      calculate_hash ⟨"/w/c.txt", some 1, some [121]⟩ :=
  ⟨hasher_deterministic.2.1 _ _ rfl,
   hasher_deterministic.2.2 _ _ [120] [121] rfl rfl (by decide)⟩

/-- **C10**: for a non-directory root, the grouper returns the same empty dict
it returns for a directory holding no duplicates — the two outcomes are
indistinguishable at its return value — and the main flow then shows the
"No Duplicates Found" report right after the invalid-input error dialog. -/
theorem invalid_root_indistinguishable_from_empty (inp : ScanInput)
    (env : DeleteEnv) (dec : Decision) (hdir : inp.isDir = false) :
    (find_duplicate_files inp).2 =
      (find_duplicate_files
        ⟨true, [⟨"/other/unique.txt", some 1, some [121]⟩]⟩).2 ∧
    mainModel inp env dec =
      [Event.errorDialog "Error" "The selected path is not a valid directory.",
       Event.infoDialog "No Duplicates Found"
         "No duplicate files were found in the selected folder."] := by
  have h8 : find_duplicate_files inp =
      ([Event.errorDialog "Error" "The selected path is not a valid directory."],
        Except.ok []) := by
    simp [find_duplicate_files, hdir]
  constructor
  · rw [h8]
    rfl
  · simp only [mainModel]
    rw [h8]
    simp [mainAfterScan]

theorem invalid_root_indistinguishable_witness :
    (find_duplicate_files ⟨false, filesDup⟩).2 =
      (find_duplicate_files
        ⟨true, [⟨"/other/unique.txt", some 1, some [121]⟩]⟩).2 ∧
    mainModel ⟨false, filesDup⟩ envAllOk Decision.confirm =
      [Event.errorDialog "Error" "The selected path is not a valid directory.",
       Event.infoDialog "No Duplicates Found"
         "No duplicate files were found in the selected folder."] :=
  invalid_root_indistinguishable_from_empty ⟨false, filesDup⟩ envAllOk
    Decision.confirm rfl

end DupRemover
